import Mathlib

/-!
Verification of the streaming-session pipeline of the CUDAgent repository.

The subject of this development is the client-side streaming consumer in
`apps/web/components/CoachChat.tsx` (`CoachChat.onSend`): it reads raw text
chunks from a streamed HTTP response, reassembles blank-line-delimited frames
via a carry-over buffer, classifies `data:`-marked lines (text delta, status
ping, structured error, `[DONE]` termination sentinel), and applies the
resulting deltas to the single open assistant message of the transcript.

Strings are modelled as `List Char` (the `TextDecoder` with `stream: true`
in the source handles UTF-8 chunk boundaries, so a character-level model of
the chunked text is faithful).  JavaScript built-ins used by the source
(`String.prototype.split`, `trim`, `trimStart`, `JSON.parse`, truthiness,
template-literal stringification) are modelled explicitly below.
-/

namespace CoachStream

/-! ### JavaScript string helpers

`jsWhite` is the WhiteSpace ∪ LineTerminator set used by `String.prototype.trim`
and `trimStart`; `jsonWs` is the (smaller) insignificant-whitespace set of
`JSON.parse`. -/

def jsWhite (c : Char) : Bool :=
  let n := c.toNat
  n = 0x20 || n = 0x9 || n = 0xA || n = 0xB || n = 0xC || n = 0xD ||
  n = 0xA0 || n = 0xFEFF || n = 0x1680 || (0x2000 ≤ n && n ≤ 0x200A) ||
  n = 0x2028 || n = 0x2029 || n = 0x202F || n = 0x205F || n = 0x3000

def jsTrimStart (s : List Char) : List Char :=
  s.dropWhile jsWhite

def jsTrimEnd (s : List Char) : List Char :=
  (s.reverse.dropWhile jsWhite).reverse

/-- Model of `String.prototype.trim`. -/
def jsTrim (s : List Char) : List Char :=
  jsTrimEnd (jsTrimStart s)

def jsonWs (c : Char) : Bool :=
  c == ' ' || c == '\t' || c == '\n' || c == '\r'

def skipJWs (s : List Char) : List Char :=
  s.dropWhile jsonWs

/-! ### Frame reassembly: `String.prototype.split`

`splitNN` models `buffer.split('\n\n')` (leftmost, non-overlapping matches of
the two-character frame delimiter); `splitLn` models `evt.split('\n')`. -/

def consHead (c : Char) : List (List Char) → List (List Char)
  | [] => [[c]]
  | p :: ps => (c :: p) :: ps

def splitNN : List Char → List (List Char)
  | [] => [[]]
  | [c] => [[c]]
  | c1 :: c2 :: rest =>
    if c1 = '\n' ∧ c2 = '\n' then [] :: splitNN rest
    else consHead c1 (splitNN (c2 :: rest))

def splitLn : List Char → List (List Char)
  | [] => [[]]
  | c :: rest =>
    if c = '\n' then [] :: splitLn rest
    else consHead c (splitLn rest)

theorem splitNN_sep (rest : List Char) :
    splitNN ('\n' :: '\n' :: rest) = [] :: splitNN rest := by
  rw [splitNN, if_pos ⟨rfl, rfl⟩]

theorem splitNN_cons2 (c1 c2 : Char) (rest : List Char) (h : ¬(c1 = '\n' ∧ c2 = '\n')) :
    splitNN (c1 :: c2 :: rest) = consHead c1 (splitNN (c2 :: rest)) := by
  rw [splitNN, if_neg h]

theorem splitNN_ne_nil (x : List Char) : splitNN x ≠ [] := by
  induction x using splitNN.induct with
  | case1 => simp [splitNN]
  | case2 c => simp [splitNN]
  | case3 c1 c2 rest h ih => simp [splitNN, h]
  | case4 c1 c2 rest h ih =>
    rw [splitNN_cons2 _ _ _ h]
    cases hs : splitNN (c2 :: rest) with
    | nil => exact absurd hs ih
    | cons p ps => simp [consHead]

theorem splitNN_single (x p : List Char) (h : splitNN x = [p]) : x = p := by
  induction x using splitNN.induct generalizing p with
  | case1 => injection h
  | case2 c => injection h
  | case3 c1 c2 rest hc ih =>
    obtain ⟨h1, h2⟩ := hc
    subst h1; subst h2
    rw [splitNN_sep] at h
    have : splitNN rest = [] := by
      injection h with _ h2
    exact absurd this (splitNN_ne_nil rest)
  | case4 c1 c2 rest hc ih =>
    rw [splitNN_cons2 _ _ _ hc] at h
    cases hs : splitNN (c2 :: rest) with
    | nil => exact absurd hs (splitNN_ne_nil _)
    | cons q qs =>
      rw [hs] at h
      simp only [consHead] at h
      injection h with h1 h2
      subst h2
      rw [← h1, ← ih q hs]

theorem getLastD_irrel {l : List (List Char)} (h : l ≠ []) (d1 d2 : List Char) :
    l.getLastD d1 = l.getLastD d2 := by
  rw [List.getLastD_eq_getLast?, List.getLastD_eq_getLast?]
  cases hl : l.getLast? with
  | none => exact absurd (List.getLast?_eq_none_iff.mp hl) h
  | some a => rfl

theorem getLastD_append_ne (l1 l2 : List (List Char)) (h : l2 ≠ []) (b : List Char) :
    (l1 ++ l2).getLastD b = l2.getLastD b := by
  rw [List.getLastD_eq_getLast?, List.getLastD_eq_getLast?, List.getLast?_append]
  cases hl : l2.getLast? with
  | none => exact absurd (List.getLast?_eq_none_iff.mp hl) h
  | some a => rfl

/-- Streaming-split composition: splitting `x ++ y` emits the complete parts of
`x` followed by the parts of the carried-over last part of `x` glued to `y`.
This is the algebraic heart of chunk-boundary invariance. -/
theorem splitNN_append (x y : List Char) :
    splitNN (x ++ y) = (splitNN x).dropLast ++ splitNN ((splitNN x).getLastD [] ++ y) := by
  induction x using splitNN.induct with
  | case1 => simp [splitNN]
  | case2 c => simp [splitNN]
  | case3 c1 c2 rest hc ih =>
    obtain ⟨h1, h2⟩ := hc
    subst h1; subst h2
    have hne := splitNN_ne_nil rest
    simp only [List.cons_append]
    rw [splitNN_sep, splitNN_sep, ih, List.dropLast_cons_of_ne_nil hne, List.getLastD_cons]
    simp [List.cons_append]
  | case4 c1 c2 rest hc ih =>
    cases hS : splitNN (c2 :: rest) with
    | nil => exact absurd hS (splitNN_ne_nil _)
    | cons p ps =>
      simp only [List.cons_append]
      rw [splitNN_cons2 _ _ _ hc]
      have hg : splitNN (c2 :: (rest ++ y)) = splitNN ((c2 :: rest) ++ y) := by
        rw [List.cons_append]
      rw [hg, ih, splitNN_cons2 _ _ _ hc, hS]
      cases ps with
      | nil =>
        have hp : c2 :: rest = p := splitNN_single _ _ hS
        simp only [consHead, List.dropLast_single, List.getLastD_cons, List.getLastD_nil,
          List.nil_append]
        rw [← hp]
        simp only [List.cons_append]
        rw [splitNN_cons2 _ _ _ hc]
        cases splitNN (c2 :: (rest ++ y)) <;> rfl
      | cons q qs =>
        simp only [consHead, List.dropLast_cons₂, List.getLastD_cons]
        rfl

/-! ### JSON values and `JSON.parse`

Numbers are kept as their literal parts (sign, integer digits, fraction
digits, exponent sign and digits) rather than evaluated to floats; the
classifier only needs parse success/failure, the `error` field, and JS
truthiness, none of which require float arithmetic. -/

inductive Json where
  | null
  | bool (b : Bool)
  | num (neg : Bool) (ip fp : List Char) (eneg : Bool) (ep : List Char)
  | str (s : List Char)
  | arr (elems : List Json)
  | obj (fields : List (List Char × Json))

def isDig (c : Char) : Bool :=
  '0'.toNat ≤ c.toNat && c.toNat ≤ '9'.toNat

def hexVal (c : Char) : Option Nat :=
  if '0'.toNat ≤ c.toNat ∧ c.toNat ≤ '9'.toNat then some (c.toNat - '0'.toNat)
  else if 'a'.toNat ≤ c.toNat ∧ c.toNat ≤ 'f'.toNat then some (c.toNat - 'a'.toNat + 10)
  else if 'A'.toNat ≤ c.toNat ∧ c.toNat ≤ 'F'.toNat then some (c.toNat - 'A'.toNat + 10)
  else none

/-- Body of a JSON string after its opening quote: ordinary characters,
escape sequences, and the closing quote.  Unescaped control characters are
rejected, as in `JSON.parse`.  A `\uXXXX` escape outside the scalar range
maps through `Char.ofNat`'s default (lone surrogates do not occur in the
payloads this development reasons about). -/
def parseJStr : Nat → List Char → Option (List Char × List Char)
  | 0, _ => none
  | _ + 1, [] => none
  | fuel + 1, c :: rest =>
    if c = '"' then some ([], rest)
    else if c = '\\' then
      match rest with
      | [] => none
      | e :: rest2 =>
        let cont (ch : Char) (rs : List Char) : Option (List Char × List Char) :=
          (parseJStr fuel rs).map (fun pr => (ch :: pr.1, pr.2))
        if e = '"' then cont '"' rest2
        else if e = '\\' then cont '\\' rest2
        else if e = '/' then cont '/' rest2
        else if e = 'b' then cont '\x08' rest2
        else if e = 'f' then cont '\x0C' rest2
        else if e = 'n' then cont '\n' rest2
        else if e = 'r' then cont '\r' rest2
        else if e = 't' then cont '\t' rest2
        else if e = 'u' then
          match rest2 with
          | h1 :: h2 :: h3 :: h4 :: rest3 =>
            match hexVal h1, hexVal h2, hexVal h3, hexVal h4 with
            | some v1, some v2, some v3, some v4 =>
              cont (Char.ofNat (((v1 * 16 + v2) * 16 + v3) * 16 + v4)) rest3
            | _, _, _, _ => none
          | _ => none
        else none
    else if c.toNat < 0x20 then none
    else (parseJStr fuel rest).map (fun pr => (c :: pr.1, pr.2))

/-- JSON number grammar: `-? (0 | [1-9][0-9]*) (. [0-9]+)? ([eE] [+-]? [0-9]+)?`.
Leading zeros, bare `.`/`e` parts and empty digit runs are rejected, as in
`JSON.parse`. -/
def parseNum (s : List Char) : Option (Json × List Char) := do
  let (neg, s1) :=
    match s with
    | '-' :: r => (true, r)
    | _ => (false, s)
  let (ip, s2) ←
    match s1 with
    | '0' :: r => some (['0'], r)
    | c :: r =>
      if isDig c && c != '0' then
        let (ds, r2) := (r.span isDig)
        some (c :: ds, r2)
      else none
    | [] => none
  let (fp, s3) ←
    match s2 with
    | '.' :: r =>
      let (ds, r2) := (r.span isDig)
      if ds = [] then none else some (ds, r2)
    | _ => some ([], s2)
  let (eneg, ep, s4) ←
    match s3 with
    | e :: r =>
      if e = 'e' ∨ e = 'E' then
        let (es, r1) :=
          match r with
          | '+' :: r2 => (false, r2)
          | '-' :: r2 => (true, r2)
          | _ => (false, r)
        let (ds, r2) := (r1.span isDig)
        if ds = [] then none else some (es, ds, r2)
      else some (false, [], s3)
    | [] => some (false, [], s3)
  return (Json.num neg ip fp eneg ep, s4)

mutual

/-- Recursive-descent model of `JSON.parse`'s value grammar.  `fuel` only
bounds recursion depth for totality; `jsonParse` supplies enough for any
input it is applied to. -/
def parseVal : Nat → List Char → Option (Json × List Char)
  | 0, _ => none
  | _ + 1, [] => none
  | fuel + 1, c :: rest =>
    if c = '\x7b' then
      match skipJWs rest with
      | '\x7d' :: r2 => some (Json.obj [], r2)
      | s1 => (parseMembers fuel s1).map (fun pr => (Json.obj pr.1, pr.2))
    else if c = '[' then
      match skipJWs rest with
      | ']' :: r2 => some (Json.arr [], r2)
      | s1 => (parseElems fuel s1).map (fun pr => (Json.arr pr.1, pr.2))
    else if c = '"' then
      (parseJStr (rest.length + 1) rest).map (fun pr => (Json.str pr.1, pr.2))
    else if c = 't' then
      match rest with
      | 'r' :: 'u' :: 'e' :: r => some (Json.bool true, r)
      | _ => none
    else if c = 'f' then
      match rest with
      | 'a' :: 'l' :: 's' :: 'e' :: r => some (Json.bool false, r)
      | _ => none
    else if c = 'n' then
      match rest with
      | 'u' :: 'l' :: 'l' :: r => some (Json.null, r)
      | _ => none
    else parseNum (c :: rest)

/-- Members of a JSON object after `{` (first member onward); input is
whitespace-skipped.  Duplicate keys are kept in order; lookup takes the last
occurrence, matching JS object construction. -/
def parseMembers : Nat → List Char → Option (List (List Char × Json) × List Char)
  | 0, _ => none
  | fuel + 1, s =>
    match s with
    | '"' :: rest =>
      match parseJStr (rest.length + 1) rest with
      | some (key, r1) =>
        match skipJWs r1 with
        | ':' :: r2 =>
          match parseVal fuel (skipJWs r2) with
          | some (v, r3) =>
            match skipJWs r3 with
            | ',' :: r4 => (parseMembers fuel (skipJWs r4)).map (fun pr => ((key, v) :: pr.1, pr.2))
            | '\x7d' :: r4 => some ([(key, v)], r4)
            | _ => none
          | none => none
        | _ => none
      | none => none
    | _ => none

/-- Elements of a JSON array after `[` (first element onward); input is
whitespace-skipped. -/
def parseElems : Nat → List Char → Option (List Json × List Char)
  | 0, _ => none
  | fuel + 1, s =>
    match parseVal fuel s with
    | some (v, r1) =>
      match skipJWs r1 with
      | ',' :: r2 => (parseElems fuel (skipJWs r2)).map (fun pr => (v :: pr.1, pr.2))
      | ']' :: r2 => some ([v], r2)
      | _ => none
    | none => none

end

/-- Model of `JSON.parse`: leading and trailing JSON whitespace is allowed,
anything else trailing the value is a syntax error. -/
def jsonParse (s : List Char) : Option Json :=
  match parseVal (2 * s.length + 4) (skipJWs s) with
  | some (v, rest) => if skipJWs rest = [] then some v else none
  | none => none

/-! ### JS value coercions used by the classifier -/

def digitsToNat (ds : List Char) : Nat :=
  ds.foldl (fun acc c => acc * 10 + (c.toNat - 48)) 0

/-- Whether a JSON numeric literal rounds to (positive or negative) zero when
converted to a JS double, decided exactly on the literal: either every
mantissa digit is `0`, or the literal's exact magnitude `m / 10 ^ down` is at
most `2 ^ (-1075)`, half the smallest denormal — a tie at exactly that
midpoint rounds to the even mantissa, which is zero.  The comparison is exact
integer arithmetic; a coarse digit-count bound short-circuits it so that
enormous negative exponents stay cheap to decide (any magnitude below
`10 ^ (-325)` is below the midpoint). -/
def numIsZero (ip fp : List Char) (eneg : Bool) (ep : List Char) : Bool :=
  let m := digitsToNat (ip ++ fp)
  if m = 0 then true
  else
    let epn := digitsToNat ep
    let digits := Nat.log 10 m + 1
    if eneg then
      let down := epn + fp.length
      if digits + 325 ≤ down then true
      else decide (m * 2 ^ 1075 ≤ 10 ^ down)
    else
      if epn < fp.length then
        let down := fp.length - epn
        if digits + 325 ≤ down then true
        else decide (m * 2 ^ 1075 ≤ 10 ^ down)
      else false

def stripZeros (l : List Char) : List Char :=
  (l.reverse.dropWhile (fun c => c == '0')).reverse

/-- Display form of a JSON numeric literal inside the model's error
annotation.  JS prints the shortest round-trip decimal of the rounded double;
this model renders the literal canonically (trailing fraction zeros dropped,
zero values collapsed to `0`, exponent parts symbolic) instead of running the
float pipeline.  No claim theorem asserts the annotation's exact text beyond
its `"\n[error] "`-prefixed shape except for string-valued error fields,
where the JS coercion is verbatim and this function is not involved. -/
def renderNum (neg : Bool) (ip fp : List Char) (eneg : Bool) (ep : List Char) : List Char :=
  if (ip ++ fp).all (fun c => c == '0') then ['0']
  else
    (if neg then ['-'] else []) ++ ip ++
    (match stripZeros fp with
     | [] => []
     | f => '.' :: f) ++
    (if ep = [] then [] else 'e' :: (if eneg then ['-'] else ['+']) ++ ep)

mutual

/-- Model of JS string coercion `${v}` for parsed JSON values: strings are
taken verbatim, arrays join their elements with `,` (null elements become
empty), objects display as `[object Object]`. -/
def jsToString : Json → List Char
  | .null => "null".toList
  | .bool true => "true".toList
  | .bool false => "false".toList
  | .num neg ip fp eneg ep => renderNum neg ip fp eneg ep
  | .str s => s
  | .arr es => jsArrStr es
  | .obj _ => "[object Object]".toList

def jsArrStr : List Json → List Char
  | [] => []
  | [Json.null] => []
  | [x] => jsToString x
  | Json.null :: y :: xs => ',' :: jsArrStr (y :: xs)
  | x :: y :: xs => jsToString x ++ ',' :: jsArrStr (y :: xs)

end

def errKey : List Char := ['e', 'r', 'r', 'o', 'r']

/-- Property lookup `obj?.error` on a parsed JSON value: only objects carry
fields; a duplicate key takes its last occurrence, as in JS object literals. -/
def getErrorField : Json → Option Json
  | .obj fields => ((fields.reverse).find? (fun kv => kv.1 == errKey)).map (fun kv => kv.2)
  | _ => none

/-- JS truthiness of a parsed JSON value (`if (obj?.error)`): null, false,
the empty string, and any numeric literal whose double value is zero —
including literals that underflow to zero, via `numIsZero` — are falsy; any
array or object is truthy. -/
def jsTruthy : Json → Bool
  | .null => false
  | .bool b => b
  | .num _ ip fp eneg ep => !(numIsZero ip fp eneg ep)
  | .str s => !s.isEmpty
  | .arr _ => true
  | .obj _ => true

/-! ### Event classifier

`classifyLine` mirrors the per-line body of the read loop in
`CoachChat.onSend` (lines 87–107): only `data:`-marked lines are significant;
the payload is everything after the marker with one leading space dropped;
a payload trimming to `[DONE]` is the termination sentinel (the source
`continue`s over it); a payload sniffing as `{`/`[` is parsed, surfacing a
truthy `error` field and dropping other structured values; parse failure and
non-structured payloads are literal text deltas. -/

inductive Event where
  | textDelta (d : List Char)
  | statusPing
  | errorEvent (m : List Char)
  | termination
deriving DecidableEq

def dataMarker : List Char := ['d', 'a', 't', 'a', ':']

def hasMarker : List Char → Bool
  | 'd' :: 'a' :: 't' :: 'a' :: ':' :: _ => true
  | _ => false

/-- Payload extraction: `ln.slice(5)` followed by dropping exactly one
leading space when present (lines 90–91 of the source). -/
def rawOf (ln : List Char) : List Char :=
  match ln.drop 5 with
  | ' ' :: rest => rest
  | r => r

def sentinel : List Char := ['[', 'D', 'O', 'N', 'E', ']']

/-- Shared prefix of every inline error annotation: a line break followed by
the error tag (both the structured-error delta of line 100 and the transport
failure annotation of line 121 use this exact shape). -/
def errTag : List Char := ['\n', '[', 'e', 'r', 'r', 'o', 'r', ']', ' ']

def classifyLine (ln : List Char) : Option Event :=
  if hasMarker ln then
    let raw := rawOf ln
    if jsTrim raw = sentinel then some Event.termination
    else
      let probe := jsTrimStart raw
      if probe.head? = some '\x7b' ∨ probe.head? = some '[' then
        match jsonParse probe with
        | some v =>
          match getErrorField v with
          | some e =>
            if jsTruthy e then some (Event.errorEvent (jsToString e))
            else some Event.statusPing
          | none => some Event.statusPing
        | none => some (Event.textDelta raw)
      else some (Event.textDelta raw)
  else none

/-- Content appended for an event: the source appends `delta` only when it is
non-empty, and appending the empty delta is a no-op, so the per-event content
effect is exactly this function. -/
def evtDelta : Event → List Char
  | .textDelta d => d
  | .statusPing => []
  | .errorEvent m => errTag ++ m
  | .termination => []

def lineDelta (ln : List Char) : List Char :=
  match classifyLine ln with
  | some e => evtDelta e
  | none => []

/-! ### The streaming loop

`SState` carries the reassembly buffer, the open assistant message's content,
and the instrumented list of classified events.  `processChunk` is one
iteration of the `while` loop in `onSend`: append the chunk, split on the
frame delimiter, process all complete frames, carry over the last part. -/

def processLine (st : List Char × List Event) (ln : List Char) : List Char × List Event :=
  match classifyLine ln with
  | some e => (st.1 ++ evtDelta e, st.2 ++ [e])
  | none => st

def processFrame (st : List Char × List Event) (f : List Char) : List Char × List Event :=
  (splitLn f).foldl processLine st

structure SState where
  buffer : List Char
  content : List Char
  events : List Event
deriving DecidableEq

def initState : SState := ⟨[], [], []⟩

def processChunk (s : SState) (c : List Char) : SState :=
  let parts := splitNN (s.buffer ++ c)
  let st := parts.dropLast.foldl processFrame (s.content, s.events)
  ⟨parts.getLastD [], st.1, st.2⟩

def processStream (chunks : List (List Char)) : SState :=
  chunks.foldl processChunk initState

/-! ### Session layer

`Message`, `Session` and `dispatch` model the React component's state:
`messages`/`input`/`sending` are the three `useState` cells and message ids
model `crypto.randomUUID()` results (freshness is a hypothesis where needed).
The in-flight guard is the `disabled={sending}` attribute on the submit
button (line 159), which blocks both clicks and implicit form submission
while a turn is running; it is modelled as a guard at the dispatch surface. -/

inductive Role where
  | user
  | assistant
  | system
deriving DecidableEq

structure Message where
  id : Nat
  role : Role
  content : List Char
deriving DecidableEq

structure Session where
  messages : List Message
  input : List Char
  sending : Bool
deriving DecidableEq

/-- Outcome of the fetch/read side of a turn: the text chunks successfully
received, and `failure = some msg` when opening the stream fails
(`!res.ok || !res.body`, thrown as `HTTP <status>`) or a read throws
mid-stream (`msg` is the thrown error's message, possibly empty). -/
structure Transport where
  chunks : List (List Char)
  failure : Option (List Char)

/-- One `setMessages` update appending a delta to the message with the open
assistant id (line 110–112 of the source). -/
def appendTo (msgs : List Message) (aId : Nat) (d : List Char) : List Message :=
  msgs.map fun m => if m.id = aId then { m with content := m.content ++ d } else m

/-- The non-empty deltas a stream produces, in order: these are exactly the
appends the read loop performs (`if (delta)` guards out empty ones). -/
def streamDeltas (chunks : List (List Char)) : List (List Char) :=
  ((processStream chunks).events.map evtDelta).filter (fun d => d ≠ [])

/-- Catch-block annotation: a line break and the error tag followed by the
thrown message, falling back to the literal text `stream failed` when the
message is absent or empty (line 121 of the source). -/
def errAnnotOf (e : List Char) : List Char :=
  errTag ++ (if e = [] then "stream failed".toList else e)

def onSendModel (s : Session) (uId aId : Nat) (tr : Transport) : Session :=
  if jsTrim s.input = [] then s
  else
    let userMsg : Message := ⟨uId, Role.user, jsTrim s.input⟩
    let m2 := (s.messages ++ [userMsg]) ++ [⟨aId, Role.assistant, []⟩]
    let m3 := (streamDeltas tr.chunks).foldl (fun ms d => appendTo ms aId d) m2
    let m4 :=
      match tr.failure with
      | none => m3
      | some e => appendTo m3 aId (errAnnotOf e)
    ⟨m4, [], false⟩

def dispatch (s : Session) (uId aId : Nat) (tr : Transport) : Session :=
  if s.sending then s else onSendModel s uId aId tr

/-- Content the open assistant message holds at the end of a turn. -/
def turnText (tr : Transport) : List Char :=
  (streamDeltas tr.chunks).flatten ++
    (match tr.failure with
     | none => []
     | some e => errAnnotOf e)

/-! ### Stream processing lemmas -/

/-- One loop iteration on `a ++ b` equals two iterations on `a` then `b`:
the buffered split hands exactly the complete frames to the classifier and
carries the rest, wherever the chunk boundary falls. -/
theorem processChunk_append (s : SState) (a b : List Char) :
    processChunk (processChunk s a) b = processChunk s (a ++ b) := by
  have hQne := splitNN_ne_nil ((splitNN (s.buffer ++ a)).getLastD [] ++ b)
  unfold processChunk
  simp only [← List.append_assoc]
  rw [splitNN_append (s.buffer ++ a) b,
    getLastD_append_ne _ _ hQne, List.dropLast_append_of_ne_nil _ hQne, List.foldl_append]

theorem processStream_flatten (cs : List (List Char)) :
    processStream cs = processChunk initState cs.flatten := by
  induction cs using List.reverseRecOn with
  | nil => rfl
  | append_singleton cs c ih =>
    rw [processStream, List.foldl_append]
    show processChunk (processStream cs) c = _
    rw [ih, processChunk_append, List.flatten_append, List.flatten_cons, List.flatten_nil,
      List.append_nil]

def evtsOfLines (ls : List (List Char)) : List Event :=
  ls.filterMap classifyLine

theorem foldl_processLine (ls : List (List Char)) (c : List Char) (ev : List Event) :
    ls.foldl processLine (c, ev)
      = (c ++ ((evtsOfLines ls).map evtDelta).flatten, ev ++ evtsOfLines ls) := by
  induction ls generalizing c ev with
  | nil => simp [evtsOfLines]
  | cons l ls ih =>
    rw [List.foldl_cons, processLine]
    cases h : classifyLine l with
    | none => rw [ih]; simp [evtsOfLines, List.filterMap_cons, h]
    | some e => rw [ih]; simp [evtsOfLines, List.filterMap_cons, h]

def evtsOfFrame (f : List Char) : List Event :=
  evtsOfLines (splitLn f)

def evtsOfFrames (fs : List (List Char)) : List Event :=
  fs.flatMap evtsOfFrame

theorem foldl_processFrame (fs : List (List Char)) (c : List Char) (ev : List Event) :
    fs.foldl processFrame (c, ev)
      = (c ++ ((evtsOfFrames fs).map evtDelta).flatten, ev ++ evtsOfFrames fs) := by
  induction fs generalizing c ev with
  | nil => simp [evtsOfFrames]
  | cons f fs ih =>
    rw [List.foldl_cons, processFrame, foldl_processLine, ih]
    simp [evtsOfFrames, evtsOfFrame, List.flatMap_cons]

theorem processChunk_events (s : SState) (c : List Char) :
    (processChunk s c).events
      = s.events ++ evtsOfFrames (splitNN (s.buffer ++ c)).dropLast := by
  unfold processChunk
  dsimp only
  rw [foldl_processFrame]

theorem processChunk_content (s : SState) (c : List Char) :
    (processChunk s c).content
      = s.content ++ ((evtsOfFrames (splitNN (s.buffer ++ c)).dropLast).map evtDelta).flatten := by
  unfold processChunk
  dsimp only
  rw [foldl_processFrame]

/-- The transcript content a stream produces is exactly the concatenation of
its classified events' deltas, in arrival order. -/
theorem processStream_content_events (cs : List (List Char)) :
    (processStream cs).content = (((processStream cs).events).map evtDelta).flatten := by
  suffices h : ∀ (cs : List (List Char)) (s : SState),
      s.content = ((s.events).map evtDelta).flatten →
      (cs.foldl processChunk s).content = (((cs.foldl processChunk s).events).map evtDelta).flatten by
    exact h cs initState rfl
  intro cs
  induction cs with
  | nil => intro s hs; exact hs
  | cons c cs ih =>
    intro s hs
    rw [List.foldl_cons]
    exact ih _ (by rw [processChunk_content, processChunk_events, hs]; simp)

/-- Every classified event of a stream is the classification of some line. -/
theorem processStream_events_from_lines (cs : List (List Char)) :
    ∀ e ∈ (processStream cs).events, ∃ ln, classifyLine ln = some e := by
  suffices h : ∀ (cs : List (List Char)) (s : SState),
      (∀ e ∈ s.events, ∃ ln, classifyLine ln = some e) →
      ∀ e ∈ (cs.foldl processChunk s).events, ∃ ln, classifyLine ln = some e by
    exact h cs initState (by intro e he; simp [initState] at he)
  intro cs
  induction cs with
  | nil => intro s hs; exact hs
  | cons c cs ih =>
    intro s hs
    rw [List.foldl_cons]
    refine ih _ ?_
    intro e he
    rw [processChunk_events] at he
    rcases List.mem_append.mp he with h1 | h2
    · exact hs e h1
    · rcases List.mem_flatMap.mp h2 with ⟨f, _, hf⟩
      rcases List.mem_filterMap.mp hf with ⟨ln, _, hln⟩
      exact ⟨ln, hln⟩

/-! ### Classifier lemmas -/

theorem jsTrimEnd_extends (l : List Char) : ∃ t, l = jsTrimEnd l ++ t := by
  rcases List.dropWhile_suffix (l := l.reverse) jsWhite with ⟨u, hu⟩
  refine ⟨u.reverse, ?_⟩
  rw [jsTrimEnd]
  calc l = l.reverse.reverse := (List.reverse_reverse l).symm
  _ = (u ++ l.reverse.dropWhile jsWhite).reverse := by rw [hu]
  _ = (l.reverse.dropWhile jsWhite).reverse ++ u.reverse := by rw [List.reverse_append]

theorem digitsToNat_all_zero (ds : List Char)
    (h : ds.all (fun c => c == '0') = true) : digitsToNat ds = 0 := by
  induction ds with
  | nil => rfl
  | cons c t ih =>
    simp only [List.all_cons, Bool.and_eq_true, beq_iff_eq] at h
    obtain ⟨hc, ht⟩ := h
    subst hc
    have hstep : digitsToNat ('0' :: t) = digitsToNat t := rfl
    rw [hstep]
    exact ih ht

theorem jsTrim_errTag_ne_sentinel (m : List Char) : jsTrim (errTag ++ m) ≠ sentinel := by
  intro h
  rw [jsTrim] at h
  have hstart : jsTrimStart (errTag ++ m)
      = '[' :: 'e' :: ('r' :: 'r' :: 'o' :: 'r' :: ']' :: ' ' :: m) := by
    rw [errTag, jsTrimStart]
    simp only [List.cons_append, List.nil_append]
    rw [List.dropWhile_cons_of_pos (by decide), List.dropWhile_cons_of_neg (by decide)]
  rw [hstart] at h
  rcases jsTrimEnd_extends ('[' :: 'e' :: ('r' :: 'r' :: 'o' :: 'r' :: ']' :: ' ' :: m)) with ⟨t, ht⟩
  rw [h, sentinel] at ht
  injection ht with he1 ht2
  injection ht2 with he2 ht3
  exact absurd he2 (by decide)

theorem classifyLine_textDelta (ln d : List Char)
    (h : classifyLine ln = some (Event.textDelta d)) :
    d = rawOf ln ∧ jsTrim d ≠ sentinel := by
  unfold classifyLine at h
  by_cases hm : hasMarker ln = true
  · rw [if_pos hm] at h
    dsimp only at h
    by_cases hs : jsTrim (rawOf ln) = sentinel
    · rw [if_pos hs] at h
      injection h with h1
      injection h1
    · rw [if_neg hs] at h
      by_cases hb : (jsTrimStart (rawOf ln)).head? = some '\x7b'
          ∨ (jsTrimStart (rawOf ln)).head? = some '['
      · rw [if_pos hb] at h
        cases hp : jsonParse (jsTrimStart (rawOf ln)) with
        | none =>
          rw [hp] at h
          dsimp only at h
          injection h with h1
          injection h1 with h2
          exact ⟨h2.symm, h2 ▸ hs⟩
        | some v =>
          rw [hp] at h
          dsimp only at h
          cases he : getErrorField v with
          | none =>
            rw [he] at h
            dsimp only at h
            injection h with h1
            injection h1
          | some e =>
            rw [he] at h
            dsimp only at h
            by_cases ht : jsTruthy e = true
            · rw [if_pos ht] at h
              injection h with h1
              injection h1
            · rw [if_neg ht] at h
              injection h with h1
              injection h1
      · rw [if_neg hb] at h
        injection h with h1
        injection h1 with h2
        exact ⟨h2.symm, h2 ▸ hs⟩
  · rw [if_neg hm] at h
    injection h

/-! ### Session lemmas -/

theorem appendTo_open (l : List Message) (aId : Nat) (r : Role) (c d : List Char)
    (h : ∀ m ∈ l, m.id ≠ aId) :
    appendTo (l ++ [⟨aId, r, c⟩]) aId d = l ++ [⟨aId, r, c ++ d⟩] := by
  unfold appendTo
  rw [List.map_append]
  congr 1
  · rw [List.map_congr_left (fun m hm => if_neg (h m hm)), List.map_id']
  · simp

theorem foldl_appendTo (l : List Message) (aId : Nat) (r : Role) (c : List Char)
    (ds : List (List Char)) (h : ∀ m ∈ l, m.id ≠ aId) :
    ds.foldl (fun ms d => appendTo ms aId d) (l ++ [⟨aId, r, c⟩])
      = l ++ [⟨aId, r, c ++ ds.flatten⟩] := by
  induction ds generalizing c with
  | nil => simp
  | cons d ds ih =>
    rw [List.foldl_cons, appendTo_open l aId r c d h, ih]
    simp

/-- The whole effect of a successfully-guarded turn on the session: the user
message and the assistant message (holding the turn's accumulated content)
are appended, everything already in the transcript is untouched, the input is
cleared and the in-flight flag ends false. -/
theorem dispatch_run (s : Session) (uId aId : Nat) (tr : Transport)
    (hs : s.sending = false) (hi : jsTrim s.input ≠ [])
    (hf : ∀ m ∈ s.messages, m.id ≠ aId) (hua : uId ≠ aId) :
    dispatch s uId aId tr
      = ⟨s.messages ++ [⟨uId, Role.user, jsTrim s.input⟩, ⟨aId, Role.assistant, turnText tr⟩],
         [], false⟩ := by
  have hfresh : ∀ m ∈ s.messages ++ [⟨uId, Role.user, jsTrim s.input⟩], m.id ≠ aId := by
    intro m hm
    rcases List.mem_append.mp hm with h1 | h2
    · exact hf m h1
    · rw [List.mem_singleton.mp h2]
      exact hua
  unfold dispatch
  rw [if_neg (by rw [hs]; exact Bool.false_ne_true)]
  unfold onSendModel
  rw [if_neg hi]
  dsimp only
  rw [foldl_appendTo _ _ _ _ _ hfresh]
  cases hfa : tr.failure with
  | none =>
    rw [turnText, hfa]
    simp
  | some e =>
    dsimp only
    simp only [List.nil_append]
    rw [appendTo_open _ _ _ _ _ hfresh, turnText, hfa]
    simp

/-! ### Cancellation (spec-modelled)

Modelled from the spec: the repository source contains no cancellation code —
`CoachChat` exposes no `cancel()` and holds no abort handle — so the Session
Controller's cancel operation is modelled here from §4.4/§4.5 of the spec:
cancellation is cooperative, observed at the next event boundary; once
observed, no further delta is applied (`halted` absorbs), content already
appended is retained, and the Transport Reader stops yielding chunks. -/

structure CRun where
  msgs : List Message
  applied : Nat
  halted : Bool

/-- Modelled from the spec: one delta arriving at the turn task; the cancel
signal (`cancelAt` deltas observed) is checked at the suspension point before
the delta is applied. -/
def cancelStep (aId cancelAt : Nat) (st : CRun) (d : List Char) : CRun :=
  if st.halted ∨ cancelAt ≤ st.applied then { st with halted := true }
  else ⟨appendTo st.msgs aId d, st.applied + 1, false⟩

/-- Modelled from the spec: the turn task run over the stream's deltas with a
cancellation request arriving after `cancelAt` deltas have been observed. -/
def cancelRun (aId cancelAt : Nat) (msgs0 : List Message) (ds : List (List Char)) : CRun :=
  ds.foldl (cancelStep aId cancelAt) ⟨msgs0, 0, false⟩

/-- Modelled from the spec: a cancelled Transport Reader stops yielding
chunks at the abort point; already-yielded chunks remain valid. -/
def readerYield (chunks : List (List Char)) (abortAt : Nat) : List (List Char) :=
  chunks.take abortAt

theorem cancel_halted_frozen (aId K : Nat) (ds : List (List Char)) :
    ∀ st : CRun, st.halted = true → ds.foldl (cancelStep aId K) st = st := by
  induction ds with
  | nil => intro st _; rfl
  | cons d ds ih =>
    intro st hh
    rw [List.foldl_cons]
    have hstep : cancelStep aId K st d = st := by
      rw [cancelStep, if_pos (Or.inl hh)]
      cases st
      simp_all
    rw [hstep, ih st hh]

theorem cancelRun_msgs (aId K : Nat) (msgs : List Message) (r : Role)
    (hf : ∀ m ∈ msgs, m.id ≠ aId) (ds : List (List Char)) :
    ∀ (n : Nat) (c : List Char),
      (ds.foldl (cancelStep aId K) ⟨msgs ++ [⟨aId, r, c⟩], n, false⟩).msgs
        = msgs ++ [⟨aId, r, c ++ ((ds.take (K - n)).flatten)⟩] := by
  induction ds with
  | nil => intro n c; simp
  | cons d ds ih =>
    intro n c
    rw [List.foldl_cons]
    by_cases hn : K ≤ n
    · rw [cancelStep, if_pos (Or.inr hn)]
      rw [cancel_halted_frozen aId K ds _ rfl]
      have : K - n = 0 := by omega
      rw [this]
      simp
    · rw [cancelStep, if_neg (by simp [hn])]
      dsimp only
      rw [appendTo_open _ _ _ _ _ hf, ih (n + 1) (c ++ d)]
      have : K - n = (K - (n + 1)) + 1 := by omega
      rw [this, List.take_succ_cons, List.flatten_cons, List.append_assoc]

/-- Classification of a non-sentinel marker line whose payload sniffs as
structured (`{` or `[`): the two-tier parse-or-fallback decision tree. -/
theorem classifyLine_structured (ln : List Char)
    (hm : hasMarker ln = true) (hs : jsTrim (rawOf ln) ≠ sentinel)
    (hb : (jsTrimStart (rawOf ln)).head? = some '\x7b'
        ∨ (jsTrimStart (rawOf ln)).head? = some '[') :
    classifyLine ln
      = match jsonParse (jsTrimStart (rawOf ln)) with
        | some v =>
          (match getErrorField v with
           | some e =>
             if jsTruthy e = true then some (Event.errorEvent (jsToString e))
             else some Event.statusPing
           | none => some Event.statusPing)
        | none => some (Event.textDelta (rawOf ln)) := by
  unfold classifyLine
  rw [if_pos hm]
  dsimp only
  rw [if_neg hs, if_pos hb]

/-! ### Claim theorems -/

/-- C1: Chunk-boundary invariance — for every valid wire stream and every way
of splitting it into non-empty fragments whose concatenation equals the
stream, the streaming loop yields the same sequence of classified events and
the same final assistant content, independent of fragment boundaries; in
particular nothing is discarded when a frame delimiter straddles fragments. -/
theorem c1_chunk_boundary_invariance (cs1 cs2 : List (List Char))
    (h1 : ∀ c ∈ cs1, c ≠ []) (h2 : ∀ c ∈ cs2, c ≠ [])
    (hj : cs1.flatten = cs2.flatten) :
    (processStream cs1).events = (processStream cs2).events ∧
    (processStream cs1).content = (processStream cs2).content := by
  rw [processStream_flatten cs1, processStream_flatten cs2, hj]
  exact ⟨rfl, rfl⟩

theorem c1_witness :
    (∀ c ∈ ["data: He".toList, "llo\n".toList, "\ndata:  world\n\n".toList], c ≠ []) ∧
    (∀ c ∈ ["data: Hello\n\ndata:  world\n\n".toList], c ≠ []) ∧
    (processStream ["data: He".toList, "llo\n".toList, "\ndata:  world\n\n".toList]).events
      = (processStream ["data: Hello\n\ndata:  world\n\n".toList]).events :=
  ⟨by decide, by decide,
    (c1_chunk_boundary_invariance _ _ (by decide) (by decide) (by decide)).1⟩

/-- C2 counterexample: the claim says that after a `[DONE]` marker line no
later event of the turn changes the transcript; but the source's `continue`
skips only the sentinel line itself, so in the stream
`"data: [DONE]\n\ndata: X\n\n"` the delta `X` of the later buffered frame is
still appended after the termination event. -/
theorem c2_counterexample :
    (processStream ["data: [DONE]\n\ndata: X\n\n".toList]).events
        = [Event.termination, Event.textDelta ['X']] ∧
    (processStream ["data: [DONE]\n\ndata: X\n\n".toList]).content = ['X'] := by
  constructor <;> rfl

/-- C2 (amended): a marker line whose payload trims to the termination
sentinel contributes nothing to the transcript — the source skips exactly
that line — and processing then continues with the remaining lines and
frames of the turn, which may still append content. -/
theorem c2_amended_sentinel_line_skipped (c : List Char) (ev : List Event)
    (ln : List Char) (ls : List (List Char))
    (hm : hasMarker ln = true) (hs : jsTrim (rawOf ln) = sentinel) :
    processLine (c, ev) ln = (c, ev ++ [Event.termination]) ∧
    (ln :: ls).foldl processLine (c, ev) = ls.foldl processLine (c, ev ++ [Event.termination]) := by
  have hcl : classifyLine ln = some Event.termination := by
    unfold classifyLine
    rw [if_pos hm]
    dsimp only
    rw [if_pos hs]
  have h1 : processLine (c, ev) ln = (c, ev ++ [Event.termination]) := by
    rw [processLine, hcl]
    simp [evtDelta]
  exact ⟨h1, by rw [List.foldl_cons, h1]⟩

theorem c2_amended_witness :
    processLine ([], []) "data: [DONE]".toList = ([], [Event.termination]) :=
  (c2_amended_sentinel_line_skipped [] [] "data: [DONE]".toList ["data: X".toList]
    (by decide) (by decide)).1

/-- C3: Payload extraction — the payload of a marker line is everything after
`data:` with exactly one leading space removed when the first character is a
space and every other character preserved verbatim; consequently the frames
`"data: Hello\n\n"` then `"data:  world\n\n"` produce exactly
`"Hello world"`. -/
theorem c3_payload_extraction :
    (∀ rest : List Char,
        rawOf (dataMarker ++ rest)
          = match rest with
            | ' ' :: t => t
            | r => r) ∧
    (processStream ["data: Hello\n\n".toList, "data:  world\n\n".toList]).content
      = "Hello world".toList := by
  constructor
  · intro rest
    rfl
  · rfl

theorem c3_witness :
    rawOf ("data:  world".toList) = " world".toList :=
  c3_payload_extraction.1 (' ' :: ' ' :: "world".toList)

/-- C5: No-sentinel-leak — the transcript content is exactly the ordered
concatenation of the classified events' deltas, and no non-empty delta trims
to `[DONE]`, so the termination sentinel never appears in the transcript as a
payload. -/
theorem c5_no_sentinel_leak (cs : List (List Char)) :
    (processStream cs).content = (((processStream cs).events).map evtDelta).flatten ∧
    ∀ e ∈ (processStream cs).events, evtDelta e ≠ [] → jsTrim (evtDelta e) ≠ sentinel := by
  refine ⟨processStream_content_events cs, ?_⟩
  intro e he hne
  rcases processStream_events_from_lines cs e he with ⟨ln, hln⟩
  cases e with
  | textDelta d =>
    rcases classifyLine_textDelta ln d hln with ⟨_, hts⟩
    exact hts
  | statusPing => exact absurd rfl hne
  | errorEvent m => exact jsTrim_errTag_ne_sentinel m
  | termination => exact absurd rfl hne

theorem c5_witness :
    jsTrim (evtDelta (Event.textDelta "Hello".toList)) ≠ sentinel :=
  (c5_no_sentinel_leak ["data: Hello\n\n".toList]).2
    (Event.textDelta "Hello".toList) (by decide) (by decide)

/-- C6: Dispatch guard — a dispatch whose text is empty or whitespace-only is
a silent no-op, and a dispatch while a turn is in flight (`sending` true; the
submit button is disabled) likewise leaves the session unchanged. -/
theorem c6_dispatch_guard (s : Session) (uId aId : Nat) (tr : Transport) :
    (jsTrim s.input = [] → dispatch s uId aId tr = s) ∧
    (s.sending = true → dispatch s uId aId tr = s) := by
  constructor
  · intro hi
    unfold dispatch
    by_cases hs : s.sending = true
    · rw [if_pos hs]
    · rw [if_neg hs, onSendModel, if_pos hi]
  · intro hs
    unfold dispatch
    rw [if_pos hs]

theorem c6_witness :
    dispatch ⟨[], "  ".toList, false⟩ 1 2 ⟨[], none⟩ = ⟨[], "  ".toList, false⟩ ∧
    dispatch ⟨[], "hi".toList, true⟩ 3 4 ⟨[], none⟩ = ⟨[], "hi".toList, true⟩ :=
  ⟨(c6_dispatch_guard _ 1 2 _).1 (by decide), (c6_dispatch_guard _ 3 4 _).2 rfl⟩

/-- C4 counterexample: the payload `{"error":""}` parses successfully and
bears an `error` field, yet nothing is appended (the source requires the
field to be truthy), contradicting the claim that `"\n[error] "` followed by
the field's value is appended whenever the parsed value bears the field. -/
theorem c4_counterexample :
    jsonParse (jsTrimStart (rawOf "data: \x7b\"error\":\"\"\x7d".toList))
        = some (Json.obj [(errKey, Json.str [])]) ∧
    (processStream ["data: \x7b\"error\":\"\"\x7d\n\n".toList]).events = [Event.statusPing] ∧
    (processStream ["data: \x7b\"error\":\"\"\x7d\n\n".toList]).content = [] :=
  ⟨rfl, rfl, rfl⟩

/-- C4 (amended): for a structured-sniffing payload of a non-sentinel marker
line, a successful parse whose `error` field is a non-empty string `m`
appends exactly `"\n[error] "` followed by `m` verbatim; a successful parse
with any truthy `error` field (truthiness of the rounded double value)
appends an inline error annotation — `"\n[error] "` followed by the field's
value's string coercion; a successful parse without a truthy `error` field
appends nothing; a failed parse appends the original payload verbatim —
e.g. `"data: \x7bnot valid json\n\n"` appends exactly
`"\x7bnot valid json"`. -/
theorem c4_amended_structured_payload (ln : List Char) (v : Json)
    (hm : hasMarker ln = true)
    (hs : jsTrim (rawOf ln) ≠ sentinel)
    (hb : (jsTrimStart (rawOf ln)).head? = some '\x7b'
        ∨ (jsTrimStart (rawOf ln)).head? = some '[') :
    (∀ m, jsonParse (jsTrimStart (rawOf ln)) = some v →
        getErrorField v = some (Json.str m) → m ≠ [] → lineDelta ln = errTag ++ m) ∧
    (∀ e, jsonParse (jsTrimStart (rawOf ln)) = some v → getErrorField v = some e →
        jsTruthy e = true → ∃ t, lineDelta ln = errTag ++ t) ∧
    (jsonParse (jsTrimStart (rawOf ln)) = some v →
        (∀ e, getErrorField v = some e → jsTruthy e = false) → lineDelta ln = []) ∧
    (jsonParse (jsTrimStart (rawOf ln)) = none → lineDelta ln = rawOf ln) ∧
    (processStream ["data: \x7bnot valid json\n\n".toList]).content
      = "\x7bnot valid json".toList := by
  have key : ∀ e, jsonParse (jsTrimStart (rawOf ln)) = some v → getErrorField v = some e →
      jsTruthy e = true → lineDelta ln = errTag ++ jsToString e := by
    intro e hp he ht
    rw [lineDelta, classifyLine_structured ln hm hs hb, hp]
    dsimp only
    rw [he]
    dsimp only
    rw [if_pos ht]
    rfl
  refine ⟨?_, ?_, ?_, ?_, rfl⟩
  · intro m hp he hne
    have ht : jsTruthy (Json.str m) = true := by
      simp [jsTruthy, hne]
    rw [key (Json.str m) hp he ht]
    simp [jsToString]
  · intro e hp he ht
    exact ⟨jsToString e, key e hp he ht⟩
  · intro hp hfe
    rw [lineDelta, classifyLine_structured ln hm hs hb, hp]
    dsimp only
    cases he : getErrorField v with
    | none => rfl
    | some e =>
      dsimp only
      rw [if_neg (by rw [hfe e he]; exact Bool.false_ne_true)]
      rfl
  · intro hp
    rw [lineDelta, classifyLine_structured ln hm hs hb, hp]
    rfl

theorem c4_witness :
    lineDelta "data: \x7b\"error\":\"rate limited\"\x7d".toList
      = errTag ++ "rate limited".toList :=
  (c4_amended_structured_payload "data: \x7b\"error\":\"rate limited\"\x7d".toList
      (Json.obj [(errKey, Json.str "rate limited".toList)])
      (by decide) (by decide) (by decide)).1
    "rate limited".toList rfl rfl (by decide)

/-- C7: Transport failure — if opening the stream fails (`!res.ok || !res.body`)
or the read throws mid-stream, exactly one inline error annotation (line
break, error tag, failure message) is appended after whatever content the
turn had streamed, the turn ends (`sending` false, the catch block being its
terminal error state), and the session remains usable: a subsequent guarded
dispatch appends its turn normally. -/
theorem c7_transport_failure (s : Session) (uId aId : Nat)
    (chunks : List (List Char)) (emsg : List Char)
    (hs : s.sending = false) (hi : jsTrim s.input ≠ [])
    (hf : ∀ m ∈ s.messages, m.id ≠ aId) (hua : uId ≠ aId) :
    (dispatch s uId aId ⟨chunks, some emsg⟩).messages
      = s.messages ++ [⟨uId, Role.user, jsTrim s.input⟩,
          ⟨aId, Role.assistant, (streamDeltas chunks).flatten ++ errAnnotOf emsg⟩] ∧
    (dispatch s uId aId ⟨chunks, some emsg⟩).sending = false ∧
    ∀ (txt : List Char) (uId2 aId2 : Nat) (tr2 : Transport),
      jsTrim txt ≠ [] →
      (∀ m ∈ (dispatch s uId aId ⟨chunks, some emsg⟩).messages, m.id ≠ aId2) →
      uId2 ≠ aId2 →
      (dispatch ⟨(dispatch s uId aId ⟨chunks, some emsg⟩).messages, txt, false⟩
          uId2 aId2 tr2).messages
        = (dispatch s uId aId ⟨chunks, some emsg⟩).messages
            ++ [⟨uId2, Role.user, jsTrim txt⟩, ⟨aId2, Role.assistant, turnText tr2⟩] := by
  have hrun := dispatch_run s uId aId ⟨chunks, some emsg⟩ hs hi hf hua
  refine ⟨?_, ?_, ?_⟩
  · rw [hrun]
    rfl
  · rw [hrun]
  · intro txt uId2 aId2 tr2 h1 h2 h3
    have hrun2 := dispatch_run ⟨(dispatch s uId aId ⟨chunks, some emsg⟩).messages, txt, false⟩
      uId2 aId2 tr2 rfl h1 h2 h3
    exact congrArg Session.messages hrun2

theorem c7_witness :
    (dispatch ⟨[⟨0, Role.system, "seed".toList⟩], "go".toList, false⟩ 1 2
        ⟨["data: A\n\n".toList], some "HTTP 500".toList⟩).messages
      = [⟨0, Role.system, "seed".toList⟩, ⟨1, Role.user, "go".toList⟩,
         ⟨2, Role.assistant, "A".toList ++ errAnnotOf "HTTP 500".toList⟩] ∧
    (dispatch ⟨[⟨0, Role.system, "seed".toList⟩], "go".toList, false⟩ 1 2
        ⟨["data: A\n\n".toList], some "HTTP 500".toList⟩).sending = false := by
  have h := c7_transport_failure ⟨[⟨0, Role.system, "seed".toList⟩], "go".toList, false⟩ 1 2
    ["data: A\n\n".toList] "HTTP 500".toList rfl (by decide) (by decide) (by decide)
  refine ⟨?_, h.2.1⟩
  rw [h.1]
  rfl

/-- C8: Single-writer append-only — each delta application maps the
transcript pointwise: ids and roles are preserved everywhere, every message's
previous content is a prefix of its new content, only the message carrying
the open assistant id changes (by appending the delta); over a whole guarded
turn the transcript gains exactly the user message and one assistant message,
and exactly one transcript entry carries the open assistant id. -/
theorem c8_single_writer_append_only (msgs : List Message) (aId : Nat) (d : List Char)
    (s : Session) (uId : Nat) (tr : Transport)
    (hs : s.sending = false) (hi : jsTrim s.input ≠ [])
    (hf : ∀ m ∈ s.messages, m.id ≠ aId) (hua : uId ≠ aId) :
    ((appendTo msgs aId d).map (fun m => (m.id, m.role)) = msgs.map (fun m => (m.id, m.role))) ∧
    (∀ m' ∈ appendTo msgs aId d, ∃ m ∈ msgs,
        m.id = m'.id ∧ m.role = m'.role ∧ (∃ t, m'.content = m.content ++ t) ∧
        (m.id ≠ aId → m' = m) ∧ (m.id = aId → m'.content = m.content ++ d)) ∧
    ((dispatch s uId aId tr).messages
        = s.messages ++ [⟨uId, Role.user, jsTrim s.input⟩, ⟨aId, Role.assistant, turnText tr⟩]) ∧
    ((dispatch s uId aId tr).messages.countP (fun m => m.id == aId) = 1) := by
  have hmsgs := congrArg Session.messages (dispatch_run s uId aId tr hs hi hf hua)
  refine ⟨?_, ?_, hmsgs, ?_⟩
  · unfold appendTo
    rw [List.map_map]
    refine List.map_congr_left ?_
    intro m hm
    by_cases h : m.id = aId <;> simp [h]
  · intro m' hm'
    unfold appendTo at hm'
    rcases List.mem_map.mp hm' with ⟨m, hm, hfm⟩
    refine ⟨m, hm, ?_⟩
    by_cases h : m.id = aId
    · rw [if_pos h] at hfm
      rw [← hfm]
      exact ⟨rfl, rfl, ⟨d, rfl⟩, fun hne => absurd h hne, fun _ => rfl⟩
    · rw [if_neg h] at hfm
      rw [← hfm]
      exact ⟨rfl, rfl, ⟨[], (List.append_nil _).symm⟩, fun _ => rfl, fun hh => absurd hh h⟩
  · rw [hmsgs, List.countP_append]
    have h0 : s.messages.countP (fun m => m.id == aId) = 0 :=
      List.countP_eq_zero.mpr (fun m hm => by simp [hf m hm])
    rw [h0]
    simp [List.countP_cons, hua]

theorem c8_witness :
    (dispatch ⟨[⟨0, Role.system, "seed".toList⟩], "hi".toList, false⟩ 1 2
        ⟨["data: ok\n\n".toList], none⟩).messages
      = [⟨0, Role.system, "seed".toList⟩, ⟨1, Role.user, "hi".toList⟩,
         ⟨2, Role.assistant, "ok".toList⟩] ∧
    (dispatch ⟨[⟨0, Role.system, "seed".toList⟩], "hi".toList, false⟩ 1 2
        ⟨["data: ok\n\n".toList], none⟩).messages.countP (fun m => m.id == 2) = 1 := by
  have h := c8_single_writer_append_only [] 2 [] ⟨[⟨0, Role.system, "seed".toList⟩],
    "hi".toList, false⟩ 1 ⟨["data: ok\n\n".toList], none⟩ rfl (by decide) (by decide) (by decide)
  refine ⟨?_, h.2.2.2⟩
  rw [h.2.2.1]
  rfl

/-- C9 (modelled from the spec: the source has no cancellation code, so the
Session Controller's `cancel()` of §4.4/§4.5 is modelled from the spec's
words): cancelling after `K` deltas leaves the open assistant message's
content exactly the concatenation of those `K` deltas, no transcript mutation
occurs once cancellation is observed, and the aborted Transport Reader stops
yielding chunks at the abort point. -/
theorem c9_cancellation_truncation (msgs : List Message) (aId K : Nat)
    (ds chunks : List (List Char))
    (hf : ∀ m ∈ msgs, m.id ≠ aId) :
    ((cancelRun aId K (msgs ++ [⟨aId, Role.assistant, []⟩]) ds).msgs
        = msgs ++ [⟨aId, Role.assistant, (ds.take K).flatten⟩]) ∧
    (∀ st : CRun, st.halted = true → ∀ ds2 : List (List Char),
        (ds2.foldl (cancelStep aId K) st).msgs = st.msgs) ∧
    ((readerYield chunks K).length ≤ K) := by
  refine ⟨?_, ?_, ?_⟩
  · rw [cancelRun, cancelRun_msgs aId K msgs Role.assistant hf ds 0 []]
    simp
  · intro st hh ds2
    rw [cancel_halted_frozen aId K ds2 st hh]
  · rw [readerYield, List.length_take]
    exact min_le_left _ _

theorem c9_witness :
    (cancelRun 2 1 ([⟨0, Role.system, "s".toList⟩] ++ [⟨2, Role.assistant, []⟩])
        ["A".toList, "B".toList]).msgs
      = [⟨0, Role.system, "s".toList⟩] ++ [⟨2, Role.assistant, "A".toList⟩] := by
  rw [(c9_cancellation_truncation [⟨0, Role.system, "s".toList⟩] 2 1
    ["A".toList, "B".toList] [] (by decide)).1]
  rfl

/-- C10 (implicit): a marker-line payload that parses successfully as
structured data but whose `error` field is absent, null, false, zero, or the
empty string is silently dropped like a status ping — nothing is appended and
no error annotation is produced. -/
theorem c10_falsy_error_is_ping (ln : List Char) (v : Json)
    (hb : (jsTrimStart (rawOf ln)).head? = some '\x7b'
        ∨ (jsTrimStart (rawOf ln)).head? = some '[')
    (hp : jsonParse (jsTrimStart (rawOf ln)) = some v)
    (hfv : getErrorField v = none ∨ getErrorField v = some Json.null
        ∨ getErrorField v = some (Json.bool false)
        ∨ (∃ neg ip fp eneg ep, getErrorField v = some (Json.num neg ip fp eneg ep)
            ∧ (ip ++ fp).all (fun c => c == '0') = true)
        ∨ getErrorField v = some (Json.str [])) :
    lineDelta ln = [] := by
  have hfe : ∀ e, getErrorField v = some e → jsTruthy e = false := by
    intro e he
    rcases hfv with h | h | h | ⟨neg, ip, fp, eneg, ep, h, hz⟩ | h
    · rw [h] at he
      exact absurd he (by simp)
    · rw [h] at he
      injection he with he1
      rw [← he1]
      rfl
    · rw [h] at he
      injection he with he1
      rw [← he1]
      rfl
    · rw [h] at he
      injection he with he1
      rw [← he1]
      have hm0 : digitsToNat (ip ++ fp) = 0 := digitsToNat_all_zero _ hz
      simp [jsTruthy, numIsZero, hm0]
    · rw [h] at he
      injection he with he1
      rw [← he1]
      rfl
  by_cases hm : hasMarker ln = true
  · by_cases hsent : jsTrim (rawOf ln) = sentinel
    · rw [lineDelta, classifyLine, if_pos hm]
      dsimp only
      rw [if_pos hsent]
      rfl
    · rw [lineDelta, classifyLine_structured ln hm hsent hb, hp]
      dsimp only
      cases he : getErrorField v with
      | none => rfl
      | some e =>
        dsimp only
        rw [if_neg (by rw [hfe e he]; exact Bool.false_ne_true)]
        rfl
  · rw [lineDelta, classifyLine, if_neg hm]

theorem c10_witness :
    lineDelta "data: \x7b\"error\":false\x7d".toList = [] :=
  c10_falsy_error_is_ping "data: \x7b\"error\":false\x7d".toList
    (Json.obj [(errKey, Json.bool false)]) (by decide) rfl
    (Or.inr (Or.inr (Or.inl rfl)))

end CoachStream
